import Mathlib

/-!
Shallow embedding of the rate-limiting and caching core of the ynab-py
library (src/ynab_py/rate_limiter.py and src/ynab_py/cache.py), together
with theorems settling the specification claims about these components.

Modelling conventions:
* Python `time.time()` instants and float durations are modelled as
  rationals (ℚ).
* `float('inf')` expiry is modelled as `Option ℚ` with `none` standing
  for infinity.
* Python exceptions (IndexError from `deque[0]` / `list.pop(0)` on an
  empty sequence) are modelled with `Except String`.
* Python dicts are modelled as association lists with distinct keys;
  `collections.deque` and Python lists are Lean lists.
* `time.sleep(d)` suspends the thread; the instant at which the thread
  resumes is passed explicitly as a parameter (`wake`).
-/

/-! ### Rate limiter (src/ynab_py/rate_limiter.py) -/

/-- Constant `self.window_seconds = 3600` (one hour), fixed in `RateLimiter.__init__`. -/
def window_seconds : ℚ := 3600

/-- Python `int()` conversion on a float/rational: truncation toward zero. -/
def pyInt (q : ℚ) : ℤ := if 0 ≤ q then ⌊q⌋ else ⌈q⌉

/-- State of a `RateLimiter` instance: `self.max_requests` and the deque
`self.requests` of admitted timestamps (front = oldest). -/
structure RateLimiter where
  max_requests : ℤ
  requests : List ℚ
deriving DecidableEq

/-- Constructor `RateLimiter.__init__`: `max_requests = int(requests_per_hour * safety_margin)`,
empty request deque. -/
def RateLimiter.init (requests_per_hour safety_margin : ℚ) : RateLimiter :=
  ⟨pyInt (requests_per_hour * safety_margin), []⟩

/-- Method `RateLimiter._clean_old_requests`: pop entries from the front while
`self.requests[0] < current_time - self.window_seconds`. -/
def clean_old_requests (current_time : ℚ) : List ℚ → List ℚ
  | [] => []
  | x :: l =>
    if x < current_time - window_seconds then clean_old_requests current_time l
    else x :: l

/-- Method `RateLimiter.wait_if_needed`, called at instant `t`.  If the cleaned log
is at capacity and the computed wait time is positive, the thread sleeps and
resumes at instant `wake` (then re-purges and appends `wake`); otherwise it
appends `t` directly.  `self.requests[0]` on an empty deque raises
`IndexError`.  Returns the new state together with the appended timestamp. -/
def RateLimiter.wait_if_needed (s : RateLimiter) (t wake : ℚ) :
    Except String (RateLimiter × ℚ) :=
  if s.max_requests ≤ ((clean_old_requests t s.requests).length : ℤ) then
    match clean_old_requests t s.requests with
    | [] => .error "IndexError"
    | oldest :: rest =>
      if 0 < oldest + window_seconds - t then
        .ok (⟨s.max_requests, clean_old_requests wake (oldest :: rest) ++ [wake]⟩, wake)
      else
        .ok (⟨s.max_requests, (oldest :: rest) ++ [t]⟩, t)
  else
    .ok (⟨s.max_requests, clean_old_requests t s.requests ++ [t]⟩, t)

/-- The statistics dictionary returned by `RateLimiter.get_stats`. -/
structure RLStats where
  requests_used : ℕ
  requests_remaining : ℤ
  max_requests : ℤ
  window_seconds : ℚ
  usage_percentage : ℚ
deriving DecidableEq

/-- Method `RateLimiter.get_stats`, called at instant `t`: purges stale entries
(mutating the deque) and reports usage. -/
def RateLimiter.get_stats (s : RateLimiter) (t : ℚ) : RLStats × RateLimiter :=
  let r := clean_old_requests t s.requests
  (⟨r.length, s.max_requests - r.length, s.max_requests, window_seconds,
    if 0 < s.max_requests then (r.length : ℚ) / (s.max_requests : ℚ) * 100 else 0⟩,
   ⟨s.max_requests, r⟩)

/-- A sequence of `wait_if_needed` calls.  Each scheduled call carries the
instant `t` at which it runs and the instant `wake` at which its sleep (if
any) resumes.  Returns the final state and the list of admitted timestamps. -/
def runAdmits (s : RateLimiter) : List (ℚ × ℚ) → Except String (RateLimiter × List ℚ)
  | [] => .ok (s, [])
  | (t, w) :: rest =>
    match s.wait_if_needed t w with
    | .error e => .error e
    | .ok (s1, t1) =>
      match runAdmits s1 rest with
      | .error e => .error e
      | .ok (s2, log) => .ok (s2, t1 :: log)

/-- Well-formed schedule for a sequence of admissions starting from state `s`
at instant `tprev`: call instants are non-decreasing, and every call that
finds the purged log at capacity has a strictly positive wait time
(`t < oldest + window_seconds`) and a wake instant strictly past the
boundary (`oldest + window_seconds < wake`). -/
def validSched (s : RateLimiter) (tprev : ℚ) : List (ℚ × ℚ) → Bool
  | [] => true
  | (t, w) :: rest =>
    decide (tprev ≤ t) &&
    (if s.max_requests ≤ ((clean_old_requests t s.requests).length : ℤ) then
       match clean_old_requests t s.requests with
       | [] => false
       | oldest :: _ =>
         decide (t < oldest + window_seconds) &&
         decide (oldest + window_seconds < w)
     else true) &&
    (match s.wait_if_needed t w with
     | .error _ => false
     | .ok (s1, t1) => validSched s1 t1 rest)

/-- Number of admitted timestamps whose age at instant `now` is at most the
window (the call "counts against" the trailing window). -/
def countInWindow (log : List ℚ) (now : ℚ) : ℕ :=
  log.countP (fun x => decide (now - x ≤ window_seconds))

/-- Number of admitted timestamps strictly inside the trailing window at
instant `now`. -/
def countStrictInWindow (log : List ℚ) (now : ℚ) : ℕ :=
  log.countP (fun x => decide (now - x < window_seconds))

/-- Invariant carried by the rate limiter between calls: the deque is sorted
(oldest first), every entry is at most the current instant, and the deque
holds at most `max_requests` entries. -/
def RLInv (s : RateLimiter) (now : ℚ) : Prop :=
  s.requests.Sorted (· ≤ ·) ∧ (∀ x ∈ s.requests, x ≤ now) ∧
    (s.requests.length : ℤ) ≤ s.max_requests

/-! ### Basic lemmas about `clean_old_requests` -/

theorem clean_sorted {l : List ℚ} (t : ℚ) (h : l.Sorted (· ≤ ·)) :
    (clean_old_requests t l).Sorted (· ≤ ·) := by
  induction l with
  | nil => exact h
  | cons x l ih =>
    rw [clean_old_requests]
    split
    · exact ih h.of_cons
    · exact h

theorem clean_subset {l : List ℚ} {t x : ℚ} (h : x ∈ clean_old_requests t l) :
    x ∈ l := by
  induction l with
  | nil => simp [clean_old_requests] at h
  | cons y l ih =>
    rw [clean_old_requests] at h
    split at h
    · exact List.mem_cons_of_mem _ (ih h)
    · exact h

theorem clean_length {l : List ℚ} (t : ℚ) :
    (clean_old_requests t l).length ≤ l.length := by
  induction l with
  | nil => simp [clean_old_requests]
  | cons x l ih =>
    rw [clean_old_requests]
    split
    · exact Nat.le_succ_of_le ih
    · exact le_refl _

theorem clean_eq_self {l : List ℚ} {t : ℚ}
    (h : ∀ x ∈ l, ¬ x < t - window_seconds) :
    clean_old_requests t l = l := by
  induction l with
  | nil => rfl
  | cons x l ih =>
    rw [clean_old_requests, if_neg (h x (List.mem_cons_self x l))]

/-- Purging entries older than the window does not change the number of
in-window entries, for any observation instant `now ≥ t`. -/
theorem clean_countP_eq {l : List ℚ} {t now : ℚ} (hnow : t ≤ now) :
    (clean_old_requests t l).countP (fun x => decide (now - x ≤ window_seconds)) =
      l.countP (fun x => decide (now - x ≤ window_seconds)) := by
  induction l with
  | nil => rfl
  | cons x l ih =>
    rw [clean_old_requests]
    split
    · rename_i hx
      rw [ih, List.countP_cons]
      have : ¬ (now - x ≤ window_seconds) := by linarith
      simp [this]
    · rfl

theorem countInWindow_append (l1 l2 : List ℚ) (now : ℚ) :
    countInWindow (l1 ++ l2) now = countInWindow l1 now + countInWindow l2 now := by
  simp [countInWindow, List.countP_append]

theorem clean_countInWindow_eq {l : List ℚ} {t now : ℚ} (hnow : t ≤ now) :
    countInWindow (clean_old_requests t l) now = countInWindow l now :=
  clean_countP_eq hnow

/-- One admission step preserves the invariant and, seen from any later
instant, adds exactly the new timestamp to the in-window count. -/
theorem wait_step {s : RateLimiter} {t w now : ℚ}
    (hInv : RLInv s now) (hnow : now ≤ t)
    (hvalid : (if s.max_requests ≤ ((clean_old_requests t s.requests).length : ℤ) then
       match clean_old_requests t s.requests with
       | [] => false
       | oldest :: _ =>
         decide (t < oldest + window_seconds) &&
         decide (oldest + window_seconds < w)
     else true) = true) :
    ∃ s1 t1, s.wait_if_needed t w = .ok (s1, t1) ∧ t ≤ t1 ∧
      s1.max_requests = s.max_requests ∧ RLInv s1 t1 ∧
      ∀ obs, t1 ≤ obs →
        countInWindow s1.requests obs = countInWindow (s.requests ++ [t1]) obs := by
  obtain ⟨hsort, hle, hlen⟩ := hInv
  by_cases hc : s.max_requests ≤ ((clean_old_requests t s.requests).length : ℤ)
  · rw [if_pos hc] at hvalid
    cases hr : clean_old_requests t s.requests with
    | nil => rw [hr] at hvalid; exact absurd hvalid (by simp)
    | cons oldest rest =>
      rw [hr] at hvalid
      have hw1 : t < oldest + window_seconds := by
        have := (Bool.and_eq_true _ _).mp hvalid |>.1
        exact of_decide_eq_true this
      have hw2 : oldest + window_seconds < w := by
        have := (Bool.and_eq_true _ _).mp hvalid |>.2
        exact of_decide_eq_true this
      refine ⟨⟨s.max_requests, clean_old_requests w (oldest :: rest) ++ [w]⟩, w, ?_, ?_, rfl, ?_, ?_⟩
      · rw [hr] at hc
        simp only [RateLimiter.wait_if_needed, hr, if_pos hc]
        rw [if_pos (show (0:ℚ) < oldest + window_seconds - t by linarith)]
      · linarith
      · have hsub : ∀ x ∈ clean_old_requests w (oldest :: rest), x ≤ now := by
          intro x hx
          have : x ∈ oldest :: rest := clean_subset hx
          rw [← hr] at this
          exact hle x (clean_subset this)
        refine ⟨?_, ?_, ?_⟩
        · rw [List.Sorted, List.pairwise_append]
          have hsort1 : (oldest :: rest).Sorted (· ≤ ·) := hr ▸ clean_sorted t hsort
          refine ⟨clean_sorted w hsort1, List.pairwise_singleton _ _, ?_⟩
          intro a ha b hb
          rw [List.mem_singleton] at hb
          subst hb
          have := hsub a ha
          linarith
        · intro x hx
          rcases List.mem_append.mp hx with h | h
          · have := hsub x h; linarith
          · rw [List.mem_singleton] at h; subst h; exact le_refl _
        · have hdrop : clean_old_requests w (oldest :: rest) = clean_old_requests w rest := by
            rw [clean_old_requests, if_pos (by linarith)]
          have h1 : (clean_old_requests w rest).length ≤ rest.length := clean_length w
          have h2 : (oldest :: rest).length ≤ s.requests.length := by
            rw [← hr]; exact clean_length t
          simp only [List.length_cons] at h2
          rw [List.length_append, hdrop, List.length_singleton]
          have : (clean_old_requests w rest).length + 1 ≤ s.requests.length := by omega
          calc ((clean_old_requests w rest).length + 1 : ℤ) ≤ (s.requests.length : ℤ) := by
                exact_mod_cast this
            _ ≤ s.max_requests := hlen
      · intro obs hobs
        rw [countInWindow_append, clean_countInWindow_eq (by linarith : w ≤ obs),
          ← hr, clean_countInWindow_eq (by linarith : t ≤ obs), ← countInWindow_append]
  · refine ⟨⟨s.max_requests, clean_old_requests t s.requests ++ [t]⟩, t, ?_, le_refl t, rfl, ?_, ?_⟩
    · rw [RateLimiter.wait_if_needed, if_neg hc]
    · refine ⟨?_, ?_, ?_⟩
      · rw [List.Sorted, List.pairwise_append]
        refine ⟨clean_sorted t hsort, List.pairwise_singleton _ _, ?_⟩
        intro a ha b hb
        rw [List.mem_singleton] at hb
        subst hb
        have := hle a (clean_subset ha)
        linarith
      · intro x hx
        rcases List.mem_append.mp hx with h | h
        · have := hle x (clean_subset h); linarith
        · rw [List.mem_singleton] at h; subst h; exact le_refl _
      · rw [List.length_append, List.length_singleton]
        push_cast
        push_neg at hc
        omega
    · intro obs hobs
      rw [countInWindow_append, clean_countInWindow_eq hobs, ← countInWindow_append]

/-- Running a valid schedule succeeds, preserves the invariant, and the
admitted log's in-window count coincides with the final deque's. -/
theorem runAdmits_spec (sched : List (ℚ × ℚ)) :
    ∀ (s : RateLimiter) (tprev : ℚ), RLInv s tprev →
      validSched s tprev sched = true →
      ∃ s' log, runAdmits s sched = .ok (s', log) ∧
        s'.max_requests = s.max_requests ∧
        ∃ tlast, tprev ≤ tlast ∧ RLInv s' tlast ∧ (∀ x ∈ log, x ≤ tlast) ∧
          ((log = [] ∧ tlast = tprev ∧ s' = s) ∨ tlast ∈ log) ∧
          ∀ obs, tlast ≤ obs →
            countInWindow (s.requests ++ log) obs = countInWindow s'.requests obs := by
  induction sched with
  | nil =>
    intro s tprev hInv _
    exact ⟨s, [], rfl, rfl, tprev, le_refl _, hInv, by simp, Or.inl ⟨rfl, rfl, rfl⟩,
      fun obs _ => by simp⟩
  | cons tw rest ih =>
    intro s tprev hInv hv
    obtain ⟨t, w⟩ := tw
    rw [validSched] at hv
    have h1 := (Bool.and_eq_true _ _).mp hv |>.1
    have h3 := (Bool.and_eq_true _ _).mp hv |>.2
    have h11 := (Bool.and_eq_true _ _).mp h1 |>.1
    have h12 := (Bool.and_eq_true _ _).mp h1 |>.2
    have htprev : tprev ≤ t := of_decide_eq_true h11
    have hInv' : RLInv s t :=
      ⟨hInv.1, fun x hx => le_trans (hInv.2.1 x hx) htprev, hInv.2.2⟩
    obtain ⟨s1, t1, hstep, ht1, hmax1, hInv1, hcount1⟩ :=
      wait_step hInv' (le_refl t) h12
    rw [hstep] at h3
    obtain ⟨s', log, hrun, hmax', tlast, htlast, hInv', hlogle, hlogmem, hcount'⟩ :=
      ih s1 t1 hInv1 h3
    refine ⟨s', t1 :: log, ?_, by rw [hmax', hmax1], tlast, by linarith, hInv', ?_, ?_, ?_⟩
    · simp only [runAdmits, hstep, hrun]
    · intro x hx
      rcases List.mem_cons.mp hx with h | h
      · subst h; linarith
      · exact hlogle x h
    · rcases hlogmem with ⟨hl, htl, _⟩ | hm
      · subst hl; subst htl; exact Or.inr (List.mem_singleton.mpr rfl)
      · exact Or.inr (List.mem_cons_of_mem _ hm)
    · intro obs hobs
      have ht1obs : t1 ≤ obs := le_trans htlast hobs
      calc countInWindow (s.requests ++ t1 :: log) obs
          = countInWindow ((s.requests ++ [t1]) ++ log) obs := by
            rw [List.append_assoc, List.singleton_append]
        _ = countInWindow (s.requests ++ [t1]) obs + countInWindow log obs :=
            countInWindow_append _ _ _
        _ = countInWindow s1.requests obs + countInWindow log obs := by
            rw [hcount1 obs ht1obs]
        _ = countInWindow (s1.requests ++ log) obs := (countInWindow_append _ _ _).symm
        _ = countInWindow s'.requests obs := hcount' obs hobs

/-! ### Claim C1 -/

/-- C1 (counterexample): the sliding-window ceiling as claimed is violated.
With `requests_per_hour=2, safety_margin=1.0` (`max_requests = 2`), two
admits at instant 0 followed by three admits at instant 3600 all return
without sleeping (at instant 3600 the purge keeps the entries at exactly
the window boundary, and the computed wait time is 0, so the capacity
branch does not sleep), after which three admitted timestamps lie strictly
inside the trailing window — exceeding `max_requests = 2`. -/
theorem C1_sliding_window_counterexample :
    RateLimiter.init 2 1 = ⟨2, []⟩ ∧
    runAdmits ⟨2, []⟩ [((0:ℚ), 0), (0, 0), (3600, 0), (3600, 0), (3600, 0)] =
      .ok (⟨2, [0, 0, 3600, 3600, 3600]⟩, [0, 0, 3600, 3600, 3600]) ∧
    ¬ ((countStrictInWindow [0, 0, 3600, 3600, 3600] 3600 : ℤ) ≤ 2) := by
  refine ⟨?_, ?_, ?_⟩
  · norm_num [RateLimiter.init, pyInt]
  · norm_num [runAdmits, RateLimiter.wait_if_needed, clean_old_requests, window_seconds]
  · norm_num [countStrictInWindow, List.countP_cons, window_seconds]

/-- C1 (amended): for every `RateLimiter` with `max_requests ≥ 1` and every
sequence of admit calls in which no at-capacity call happens at the exact
instant `oldest + window_seconds` (wait time strictly positive) and every
sleep wakes strictly after `oldest + window_seconds`, the number of admitted
timestamps whose age is within the trailing `window_seconds` never exceeds
`max_requests`; at capacity the call suspends until `wake` before re-purging
and appending the wake instant. -/
theorem C1_sliding_window_ceiling_amended (m : ℤ) (t0 : ℚ) (sched : List (ℚ × ℚ))
    (hm : 1 ≤ m) (hv : validSched ⟨m, []⟩ t0 sched = true) :
    ∃ s' log, runAdmits ⟨m, []⟩ sched = .ok (s', log) ∧
      ∀ obs, (∀ x ∈ log, x ≤ obs) → (countInWindow log obs : ℤ) ≤ m := by
  have hInv0 : RLInv ⟨m, []⟩ t0 := by
    refine ⟨List.sorted_nil, by simp, by simp; omega⟩
  obtain ⟨s', log, hrun, hmaxeq, tlast, _, hInv, hlogle, hlogmem, hcount⟩ :=
    runAdmits_spec sched ⟨m, []⟩ t0 hInv0 hv
  refine ⟨s', log, hrun, ?_⟩
  intro obs hobs
  rcases hlogmem with ⟨hlog0, _, _⟩ | hmem
  · subst hlog0
    simp [countInWindow]
    omega
  · have htl : tlast ≤ obs := hobs tlast hmem
    have heq := hcount obs htl
    rw [List.nil_append] at heq
    calc (countInWindow log obs : ℤ) = (countInWindow s'.requests obs : ℤ) := by
          exact_mod_cast heq
      _ ≤ (s'.requests.length : ℤ) := by
          exact_mod_cast List.countP_le_length _
      _ ≤ s'.max_requests := hInv.2.2
      _ = m := hmaxeq

/-- C1 (witness): the amended theorem applied to a concrete one-call schedule. -/
theorem C1_sliding_window_ceiling_witness :
    (1:ℤ) ≤ 2 ∧ ∃ s' log, runAdmits ⟨2, []⟩ [((5:ℚ), 5)] = .ok (s', log) ∧
      ∀ obs, (∀ x ∈ log, x ≤ obs) → (countInWindow log obs : ℤ) ≤ 2 :=
  ⟨by norm_num,
   C1_sliding_window_ceiling_amended 2 0 [(5, 5)] (by norm_num)
     (by norm_num [validSched, RateLimiter.wait_if_needed, clean_old_requests,
        window_seconds])⟩

/-! ### Claim C3 -/

/-- C3 (counterexample): with `max_requests <= 0` (here
`requests_per_hour=0`), the very first `wait_if_needed` call finds
`len(requests) >= max_requests` with an empty deque, and `self.requests[0]`
raises `IndexError` — contradicting "admit raises no exception". -/
theorem C3_degenerate_counterexample :
    RateLimiter.init 0 1 = ⟨0, []⟩ ∧
    (RateLimiter.mk 0 []).wait_if_needed 0 0 = .error "IndexError" := by
  constructor
  · norm_num [RateLimiter.init, pyInt]
  · norm_num [RateLimiter.wait_if_needed, clean_old_requests]

/-- C3 (amended): for `max_requests ≤ 0`, every `wait_if_needed` call from
the (only reachable) empty-deque state raises `IndexError` immediately: it
never sleeps and never blocks indefinitely, but it does raise. -/
theorem C3_degenerate_amended (m : ℤ) (hm : m ≤ 0) (t w : ℚ) :
    (RateLimiter.mk m []).wait_if_needed t w = .error "IndexError" := by
  simp [RateLimiter.wait_if_needed, clean_old_requests, hm]

/-- C3 (witness): the amended theorem at a concrete degenerate input. -/
theorem C3_degenerate_witness :
    (RateLimiter.mk (-1) []).wait_if_needed 5 7 = .error "IndexError" :=
  C3_degenerate_amended (-1) (by norm_num) 5 7

/-! ### Claim C8 -/

/-- Running admits whose instants never reach capacity nor trigger a purge
simply appends the call instants to the deque. -/
theorem runAdmits_under_capacity (ts : List ℚ) :
    ∀ (s : RateLimiter),
      (s.requests ++ ts).Sorted (· ≤ ·) →
      (∀ x ∈ s.requests ++ ts, ∀ t ∈ ts, ¬ x < t - window_seconds) →
      ((s.requests.length : ℤ) + ts.length ≤ s.max_requests) →
      runAdmits s (ts.map fun t => (t, t)) = .ok (⟨s.max_requests, s.requests ++ ts⟩, ts) := by
  induction ts with
  | nil =>
    intro s _ _ _
    simp [runAdmits]
  | cons t ts ih =>
    intro s hsort hwin hlen
    have hclean : clean_old_requests t s.requests = s.requests :=
      clean_eq_self (fun x hx =>
        hwin x (List.mem_append_left _ hx) t (List.mem_cons_self t ts))
    have hcap : ¬ (s.max_requests ≤ (s.requests.length : ℤ)) := by
      simp only [List.length_cons] at hlen
      push_cast at hlen ⊢
      omega
    have hstep : s.wait_if_needed t t =
        .ok (⟨s.max_requests, s.requests ++ [t]⟩, t) := by
      rw [RateLimiter.wait_if_needed]
      rw [hclean, if_neg hcap]
    have hrest := ih ⟨s.max_requests, s.requests ++ [t]⟩
      (by rw [List.append_assoc, List.singleton_append]; exact hsort)
      (by
        intro x hx u hu
        rw [List.append_assoc, List.singleton_append] at hx
        exact hwin x hx u (List.mem_cons_of_mem _ hu))
      (by
        simp only [List.length_cons] at hlen
        simp only [List.length_append, List.length_singleton]
        push_cast at hlen ⊢
        linarith)
    simp only [List.map_cons, runAdmits, hstep, hrest]
    rw [List.append_assoc, List.singleton_append]

/-- C8: the constructor computes `max_requests = floor(requests_per_hour *
safety_margin)` (whenever the product is non-negative, as with valid
configurations) and in particular 90 for `100 * 0.9`; after `N` in-window
admits with `N ≤ max_requests`, `stats` reports `used == N` and
`remaining == max_requests - N`; `usage_percentage` equals
`used / max_requests * 100` when `max_requests > 0`, is 0 when
`max_requests == 0`, and is approximately 2.22 for 2 admits of 90. -/
theorem C8_rate_limiter_arithmetic :
    (∀ requests_per_hour safety_margin : ℚ,
      0 ≤ requests_per_hour * safety_margin →
      (RateLimiter.init requests_per_hour safety_margin).max_requests =
        ⌊requests_per_hour * safety_margin⌋) ∧
    (RateLimiter.init 100 (9/10)).max_requests = 90 ∧
    (∀ (m : ℤ) (ts : List ℚ) (now : ℚ),
      ts.Sorted (· ≤ ·) →
      (∀ x ∈ ts, x ≤ now ∧ now - x ≤ window_seconds) →
      (ts.length : ℤ) ≤ m →
      ∃ s', runAdmits ⟨m, []⟩ (ts.map fun t => (t, t)) = .ok (s', ts) ∧
        (s'.get_stats now).1.requests_used = ts.length ∧
        (s'.get_stats now).1.requests_remaining = m - ts.length) ∧
    (∀ (s : RateLimiter) (now : ℚ), 0 < s.max_requests →
      (s.get_stats now).1.usage_percentage =
        ((s.get_stats now).1.requests_used : ℚ) / (s.max_requests : ℚ) * 100) ∧
    (∀ (s : RateLimiter) (now : ℚ), s.max_requests = 0 →
      (s.get_stats now).1.usage_percentage = 0) ∧
    (∃ s', runAdmits ⟨90, []⟩ [((0:ℚ), 0), (0, 0)] = .ok (s', [0, 0]) ∧
      |(s'.get_stats 0).1.usage_percentage - 222/100| < 1/100) := by
  refine ⟨?_, ?_, ?_, ?_, ?_, ?_⟩
  · intro rph margin h
    rw [RateLimiter.init, pyInt, if_pos h]
  · norm_num [RateLimiter.init, pyInt]
  · intro m ts now hsort hwin hlen
    have hrun := runAdmits_under_capacity ts ⟨m, []⟩
      (by simpa using hsort)
      (by
        intro x hx u hu
        rw [List.nil_append] at hx
        obtain ⟨hx1, hx2⟩ := hwin x hx
        obtain ⟨hu1, _⟩ := hwin u hu
        linarith)
      (by simpa using hlen)
    rw [List.nil_append] at hrun
    refine ⟨⟨m, ts⟩, hrun, ?_, ?_⟩
    all_goals
      have hc : clean_old_requests now ts = ts :=
        clean_eq_self (fun x hx => by
          obtain ⟨hx1, hx2⟩ := hwin x hx
          linarith)
      simp [RateLimiter.get_stats, hc]
  · intro s now h
    simp [RateLimiter.get_stats, if_pos h]
  · intro s now h
    simp [RateLimiter.get_stats, h]
  · refine ⟨⟨90, [0, 0]⟩, ?_, ?_⟩
    · norm_num [runAdmits, RateLimiter.wait_if_needed, clean_old_requests, window_seconds]
    · rw [RateLimiter.get_stats]
      norm_num [clean_old_requests, window_seconds, abs]

/-- C8 (witness): the arithmetic conjuncts applied at concrete inputs. -/
theorem C8_rate_limiter_arithmetic_witness :
    (RateLimiter.init 10 1).max_requests = ⌊(10:ℚ) * 1⌋ ∧
    (∃ s', runAdmits ⟨(5:ℤ), []⟩ ([(0:ℚ)].map fun t => (t, t)) = .ok (s', [(0:ℚ)]) ∧
      (s'.get_stats 0).1.requests_used = [(0:ℚ)].length ∧
      (s'.get_stats 0).1.requests_remaining = 5 - [(0:ℚ)].length) ∧
    ((RateLimiter.mk 7 []).get_stats 3).1.usage_percentage =
      (((RateLimiter.mk 7 []).get_stats 3).1.requests_used : ℚ) / ((7:ℤ) : ℚ) * 100 ∧
    ((RateLimiter.mk 0 []).get_stats 3).1.usage_percentage = 0 := by
  refine ⟨?_, ?_, ?_, ?_⟩
  · exact C8_rate_limiter_arithmetic.1 10 1 (by norm_num)
  · exact C8_rate_limiter_arithmetic.2.2.1 5 [0] 0 (by simp)
      (by norm_num [window_seconds]) (by norm_num)
  · exact C8_rate_limiter_arithmetic.2.2.2.1 ⟨7, []⟩ 3 (by norm_num)
  · exact C8_rate_limiter_arithmetic.2.2.2.2.1 ⟨0, []⟩ 3 rfl

/-! ### Cache (src/ynab_py/cache.py) -/

/-- A cached value with absolute expiry instant; `none` models
`float('inf')` (never expires). -/
structure CacheEntry (V : Type) where
  value : V
  expiry : Option ℚ
deriving DecidableEq

/-- Constructor `CacheEntry.__init__`: `expiry = time.time() + ttl if ttl > 0 else float('inf')`. -/
def CacheEntry.init {V : Type} (value : V) (ttl : ℚ) (now : ℚ) : CacheEntry V :=
  ⟨value, if 0 < ttl then some (now + ttl) else none⟩

/-- Method `CacheEntry.is_expired`: `time.time() > self.expiry`. -/
def CacheEntry.is_expired {V : Type} (e : CacheEntry V) (now : ℚ) : Bool :=
  match e.expiry with
  | none => false
  | some x => decide (x < now)

/-- Keys of an association list (the keys of a Python dict). -/
def keysOf {β : Type} (l : List (String × β)) : List String := l.map Prod.fst

/-- Python dict assignment `d[k] = v`: overwrite in place if `k` is present,
else append. -/
def assocInsert {β : Type} (l : List (String × β)) (k : String) (v : β) :
    List (String × β) :=
  if (List.lookup k l).isSome then
    l.map (fun p => if p.1 = k then (k, v) else p)
  else l ++ [(k, v)]

/-- Python dict deletion `del d[k]` (on a nodup-key list). -/
def assocErase {β : Type} (l : List (String × β)) (k : String) :
    List (String × β) :=
  l.filter (fun p => decide (¬ p.1 = k))

/-- State of a `Cache` instance: `self.max_size`, `self.default_ttl`,
`self._cache` (dict), `self._access_order` (list, least-recent first),
and the hit/miss counters. -/
structure Cache (V : Type) where
  max_size : ℤ
  default_ttl : ℚ
  cache : List (String × CacheEntry V)
  access_order : List String
  hits : ℕ
  misses : ℕ
deriving DecidableEq

/-- Constructor `Cache.__init__`. -/
def Cache.init (V : Type) (max_size : ℤ) (default_ttl : ℚ) : Cache V :=
  ⟨max_size, default_ttl, [], [], 0, 0⟩

/-- Method `Cache.get`, called at instant `now`: returns the Python return value
(`None` on miss, modelled as `none`) together with the mutated state. -/
def Cache.get {V : Type} (c : Cache V) (key : String) (now : ℚ) :
    Option V × Cache V :=
  match List.lookup key c.cache with
  | none => (none, { c with misses := c.misses + 1 })
  | some entry =>
    if entry.is_expired now then
      (none, { c with cache := assocErase c.cache key,
                      access_order := c.access_order.erase key,
                      misses := c.misses + 1 })
    else
      (some entry.value,
       { c with access_order := (c.access_order.erase key) ++ [key],
                hits := c.hits + 1 })

/-- Method `Cache.set`, called at instant `now`.  Here `ttl = none` models the Python
default argument `ttl=None` (use `default_ttl`).  `self._access_order.pop(0)`
on an empty list raises `IndexError`. -/
def Cache.set {V : Type} (c : Cache V) (key : String) (value : V)
    (ttl : Option ℚ) (now : ℚ) : Except String (Cache V) :=
  if (List.lookup key c.cache).isSome then
    -- key already present: only the access-order entry is removed up front,
    -- and the eviction branch (which requires `key not in self._cache`)
    -- cannot trigger.
    .ok { c with
      cache := assocInsert c.cache key
        (CacheEntry.init value (ttl.getD c.default_ttl) now),
      access_order := (c.access_order.erase key) ++ [key] }
  else
    if c.max_size ≤ (c.cache.length : ℤ) then
      match c.access_order with
      | [] => .error "IndexError"
      | lru :: restOrder =>
        .ok { c with
          cache := assocInsert (assocErase c.cache lru) key
            (CacheEntry.init value (ttl.getD c.default_ttl) now),
          access_order := restOrder ++ [key] }
    else
      .ok { c with
        cache := assocInsert c.cache key
          (CacheEntry.init value (ttl.getD c.default_ttl) now),
        access_order := c.access_order ++ [key] }

/-- Method `Cache.delete`. -/
def Cache.delete {V : Type} (c : Cache V) (key : String) : Cache V :=
  if (List.lookup key c.cache).isSome then
    { c with cache := assocErase c.cache key,
             access_order := c.access_order.erase key }
  else c

/-- Method `Cache.clear`: empties entries and recency records, counters untouched. -/
def Cache.clear {V : Type} (c : Cache V) : Cache V :=
  { c with cache := [], access_order := [] }

/-- The statistics dictionary returned by `Cache.get_stats`. -/
structure CacheStats where
  size : ℕ
  max_size : ℤ
  hits : ℕ
  misses : ℕ
  total_requests : ℕ
  hit_rate_percent : ℚ
deriving DecidableEq

/-- Method `Cache.get_stats` (reads state, no mutation). -/
def Cache.get_stats {V : Type} (c : Cache V) : CacheStats :=
  ⟨c.cache.length, c.max_size, c.hits, c.misses, c.hits + c.misses,
   if 0 < c.hits + c.misses then
     (c.hits : ℚ) / ((c.hits + c.misses : ℕ) : ℚ) * 100
   else 0⟩

/-- One public cache operation with the instant at which it runs. -/
inductive CacheOp (V : Type) where
  | get (key : String) (now : ℚ)
  | set (key : String) (value : V) (ttl : Option ℚ) (now : ℚ)
  | delete (key : String)
  | clear

/-- Apply one operation; a raised `IndexError` in `set` leaves the state
unchanged (no mutation precedes the raise on that path). -/
def applyOp {V : Type} (c : Cache V) : CacheOp V → Cache V
  | .get k now => (c.get k now).2
  | .set k v ttl now =>
    match c.set k v ttl now with
    | .error _ => c
    | .ok c' => c'
  | .delete k => c.delete k
  | .clear => c.clear

/-- Run a sequence of public cache operations. -/
def runOps {V : Type} (c : Cache V) : List (CacheOp V) → Cache V
  | [] => c
  | op :: rest => runOps (applyOp c op) rest

/-- Structural invariant of a cache state: the recency list is a permutation
of the stored keys, the stored keys are distinct, and the number of entries
is at most `max_size`. -/
def CacheInv {V : Type} (c : Cache V) : Prop :=
  c.access_order.Perm (keysOf c.cache) ∧ (keysOf c.cache).Nodup ∧
    (c.cache.length : ℤ) ≤ c.max_size

/-! ### Association-list lemmas -/

theorem lookup_isSome_iff {β : Type} (l : List (String × β)) (k : String) :
    (List.lookup k l).isSome ↔ k ∈ keysOf l := by
  induction l with
  | nil => simp [keysOf]
  | cons p l ih =>
    obtain ⟨a, b⟩ := p
    by_cases h : k = a
    · subst h
      simp [List.lookup_cons, keysOf]
    · have hba : (k == a) = false := by simp [h]
      simp only [List.lookup_cons, hba, keysOf, List.map_cons, List.mem_cons]
      rw [or_iff_right h]
      exact ih

theorem lookup_eq_none_iff {β : Type} (l : List (String × β)) (k : String) :
    List.lookup k l = none ↔ k ∉ keysOf l := by
  rw [← lookup_isSome_iff]
  cases List.lookup k l <;> simp

theorem keysOf_assocInsert_present {β : Type} {l : List (String × β)} {k : String}
    (h : (List.lookup k l).isSome) (v : β) :
    keysOf (assocInsert l k v) = keysOf l := by
  rw [assocInsert, if_pos h, keysOf, keysOf, List.map_map]
  apply List.map_congr_left
  intro p _
  by_cases hp : p.1 = k
  · simp [hp]
  · simp [hp]

theorem keysOf_assocInsert_absent {β : Type} {l : List (String × β)} {k : String}
    (h : List.lookup k l = none) (v : β) :
    keysOf (assocInsert l k v) = keysOf l ++ [k] := by
  rw [assocInsert, if_neg (by simp [h]), keysOf, keysOf, List.map_append]
  rfl

theorem keysOf_assocErase {β : Type} (l : List (String × β)) (k : String) :
    keysOf (assocErase l k) = (keysOf l).filter (fun s => decide (¬ s = k)) := by
  induction l with
  | nil => rfl
  | cons p l ih =>
    by_cases hp : p.1 = k
    · simp [assocErase, keysOf, List.filter, hp] at ih ⊢
      exact ih
    · simp [assocErase, keysOf, List.filter, hp] at ih ⊢
      exact ih

theorem keysOf_assocErase_of_nodup {β : Type} {l : List (String × β)} (k : String)
    (h : (keysOf l).Nodup) :
    keysOf (assocErase l k) = (keysOf l).erase k := by
  rw [keysOf_assocErase, List.Nodup.erase_eq_filter h]
  apply List.filter_congr
  intro x _
  by_cases hx : x = k <;> simp [hx]

theorem lookup_map_replace_self {β : Type} {l : List (String × β)} {k : String}
    (h : (List.lookup k l).isSome) (v : β) :
    List.lookup k (l.map fun p => if p.1 = k then (k, v) else p) = some v := by
  induction l with
  | nil => simp [List.lookup] at h
  | cons p l ih =>
    obtain ⟨a, b⟩ := p
    by_cases hp : k = a
    · subst hp
      simp [List.lookup_cons]
    · have hba : (k == a) = false := by simp [hp]
      have hak : ¬ ((a, b).1 = k) := fun hh => hp hh.symm
      have h' : (List.lookup k l).isSome := by
        simpa [List.lookup_cons, hba] using h
      simp only [List.map_cons, if_neg hak]
      simpa [List.lookup_cons, hba] using ih h'

theorem lookup_map_replace_other {β : Type} (l : List (String × β)) {k k' : String}
    (hne : ¬ k' = k) (v : β) :
    List.lookup k' (l.map fun p => if p.1 = k then (k, v) else p) =
      List.lookup k' l := by
  induction l with
  | nil => rfl
  | cons p l ih =>
    obtain ⟨a, b⟩ := p
    by_cases hp : a = k
    · subst hp
      have hba : (k' == a) = false := by simp [hne]
      simp only [List.map_cons]
      rw [if_pos trivial]
      simp only [List.lookup_cons, hba]
      exact ih
    · simp only [List.map_cons, if_neg (show ¬ ((a, b).1 = k) from hp)]
      by_cases hk : k' = a
      · subst hk
        simp [List.lookup_cons]
      · have hba : (k' == a) = false := by simp [hk]
        simp only [List.lookup_cons, hba]
        exact ih

theorem lookup_append_self {β : Type} {l : List (String × β)} {k : String}
    (h : List.lookup k l = none) (v : β) :
    List.lookup k (l ++ [(k, v)]) = some v := by
  induction l with
  | nil => simp [List.lookup_cons]
  | cons p l ih =>
    obtain ⟨a, b⟩ := p
    by_cases hp : k = a
    · subst hp
      simp [List.lookup_cons] at h
    · have hba : (k == a) = false := by simp [hp]
      have h' : List.lookup k l = none := by
        simpa [List.lookup_cons, hba] using h
      simpa [List.lookup_cons, hba] using ih h'

theorem lookup_append_other {β : Type} (l : List (String × β)) {k k' : String}
    (hne : ¬ k' = k) (v : β) :
    List.lookup k' (l ++ [(k, v)]) = List.lookup k' l := by
  induction l with
  | nil => simp [List.lookup_cons, show (k' == k) = false by simp [hne], List.lookup]
  | cons p l ih =>
    obtain ⟨a, b⟩ := p
    by_cases hp : k' = a
    · subst hp
      simp [List.lookup_cons]
    · have hba : (k' == a) = false := by simp [hp]
      simpa [List.lookup_cons, hba] using ih

theorem lookup_assocInsert_self {β : Type} (l : List (String × β)) (k : String) (v : β) :
    List.lookup k (assocInsert l k v) = some v := by
  rw [assocInsert]
  split
  · rename_i h
    exact lookup_map_replace_self h v
  · rename_i h
    exact lookup_append_self (Option.not_isSome_iff_eq_none.mp h) v

theorem lookup_assocInsert_other {β : Type} (l : List (String × β)) {k k' : String}
    (hne : ¬ k' = k) (v : β) :
    List.lookup k' (assocInsert l k v) = List.lookup k' l := by
  rw [assocInsert]
  split
  · exact lookup_map_replace_other l hne v
  · exact lookup_append_other l hne v

theorem lookup_assocErase_self {β : Type} (l : List (String × β)) (k : String) :
    List.lookup k (assocErase l k) = none := by
  induction l with
  | nil => rfl
  | cons p l ih =>
    obtain ⟨a, b⟩ := p
    by_cases hp : a = k
    · simpa [assocErase, List.filter, hp] using ih
    · simpa [assocErase, List.filter, hp, List.lookup,
        show (k == a) = false by simp [Ne.symm hp]] using ih

theorem lookup_assocErase_other {β : Type} (l : List (String × β)) {k k' : String}
    (hne : ¬ k' = k) :
    List.lookup k' (assocErase l k) = List.lookup k' l := by
  induction l with
  | nil => rfl
  | cons p l ih =>
    obtain ⟨a, b⟩ := p
    by_cases hp : a = k
    · subst hp
      simpa [assocErase, List.filter, List.lookup,
        show (k' == a) = false by simp [hne]] using ih
    · by_cases hk : k' = a
      · subst hk; simp [assocErase, List.filter, hp, List.lookup]
      · simpa [assocErase, List.filter, hp, List.lookup,
          show (k' == a) = false by simp [hk]] using ih

theorem length_assocInsert_present {β : Type} {l : List (String × β)} {k : String}
    (h : (List.lookup k l).isSome) (v : β) :
    (assocInsert l k v).length = l.length := by
  rw [assocInsert, if_pos h, List.length_map]

theorem length_assocInsert_absent {β : Type} {l : List (String × β)} {k : String}
    (h : List.lookup k l = none) (v : β) :
    (assocInsert l k v).length = l.length + 1 := by
  rw [assocInsert, if_neg (by simp [h]), List.length_append, List.length_singleton]

theorem length_assocErase_of_mem {β : Type} {l : List (String × β)} {k : String}
    (hmem : k ∈ keysOf l) (h : (keysOf l).Nodup) :
    (assocErase l k).length = l.length - 1 := by
  have h1 : (assocErase l k).length = (keysOf (assocErase l k)).length := by
    rw [keysOf, List.length_map]
  have h2 : l.length = (keysOf l).length := by rw [keysOf, List.length_map]
  rw [h1, h2, keysOf_assocErase_of_nodup k h, List.length_erase_of_mem hmem]

/-! ### Cache invariant preservation -/

theorem cacheInv_init (V : Type) {m : ℤ} (hm : 0 ≤ m) (ttl0 : ℚ) :
    CacheInv (Cache.init V m ttl0) :=
  ⟨List.Perm.refl _, List.nodup_nil, by simpa [Cache.init] using hm⟩

theorem cacheInv_get {V : Type} {c : Cache V} (hInv : CacheInv c) (k : String)
    (now : ℚ) : CacheInv (c.get k now).2 := by
  obtain ⟨hperm, hnodup, hlen⟩ := hInv
  cases hl : List.lookup k c.cache with
  | none =>
    simp only [Cache.get, hl]
    exact ⟨hperm, hnodup, hlen⟩
  | some entry =>
    have hk : k ∈ keysOf c.cache := (lookup_isSome_iff _ _).mp (by simp [hl])
    have hk' : k ∈ c.access_order := hperm.mem_iff.mpr hk
    by_cases hexp : entry.is_expired now
    · simp only [Cache.get, hl, if_pos hexp]
      refine ⟨?_, ?_, ?_⟩
      · rw [keysOf_assocErase_of_nodup k hnodup]
        exact hperm.erase k
      · rw [keysOf_assocErase_of_nodup k hnodup]
        exact hnodup.erase k
      · calc ((assocErase c.cache k).length : ℤ) ≤ (c.cache.length : ℤ) := by
              exact_mod_cast List.length_filter_le _ _
          _ ≤ c.max_size := hlen
    · simp only [Cache.get, hl, if_neg hexp]
      refine ⟨?_, hnodup, hlen⟩
      exact ((List.perm_append_singleton k _).trans
        (List.perm_cons_erase hk').symm).trans hperm

theorem cacheInv_set {V : Type} {c : Cache V} (hInv : CacheInv c) {k : String}
    {v : V} {ttl : Option ℚ} {now : ℚ} {c' : Cache V}
    (h : c.set k v ttl now = .ok c') : CacheInv c' := by
  obtain ⟨hperm, hnodup, hlen⟩ := hInv
  by_cases hl : (List.lookup k c.cache).isSome
  · rw [Cache.set, if_pos hl] at h
    obtain rfl := (Except.ok.injEq _ _).mp h
    have hk : k ∈ keysOf c.cache := (lookup_isSome_iff _ _).mp hl
    have hk' : k ∈ c.access_order := hperm.mem_iff.mpr hk
    refine ⟨?_, ?_, ?_⟩
    · rw [keysOf_assocInsert_present hl]
      exact ((List.perm_append_singleton k _).trans
        (List.perm_cons_erase hk').symm).trans hperm
    · rw [keysOf_assocInsert_present hl]
      exact hnodup
    · rw [length_assocInsert_present hl]
      exact hlen
  · have hnone : List.lookup k c.cache = none := Option.not_isSome_iff_eq_none.mp hl
    have hknotin : k ∉ keysOf c.cache := (lookup_eq_none_iff _ _).mp hnone
    rw [Cache.set, if_neg hl] at h
    by_cases hcap : c.max_size ≤ (c.cache.length : ℤ)
    · rw [if_pos hcap] at h
      cases hao : c.access_order with
      | nil => rw [hao] at h; exact absurd h (by simp)
      | cons lru restOrder =>
        rw [hao] at h
        obtain rfl := (Except.ok.injEq _ _).mp h
        have hlru : lru ∈ keysOf c.cache :=
          hperm.mem_iff.mp (hao ▸ List.mem_cons_self lru restOrder)
        have hklru : ¬ k = lru := fun he => hknotin (he ▸ hlru)
        have hkerase : List.lookup k (assocErase c.cache lru) = none := by
          rw [lookup_assocErase_other _ hklru]
          exact hnone
        have hkeys' : keysOf (assocInsert (assocErase c.cache lru) k
            (CacheEntry.init v (ttl.getD c.default_ttl) now)) =
            ((keysOf c.cache).erase lru) ++ [k] := by
          rw [keysOf_assocInsert_absent hkerase, keysOf_assocErase_of_nodup lru hnodup]
        have hrest : restOrder.Perm ((keysOf c.cache).erase lru) := by
          have := hperm.erase lru
          rw [hao, List.erase_cons_head] at this
          exact this
        refine ⟨?_, ?_, ?_⟩
        · rw [hkeys']
          exact hrest.append_right [k]
        · rw [hkeys']
          have h1 : ((keysOf c.cache).erase lru ++ [k]).Perm
              (k :: (keysOf c.cache).erase lru) := List.perm_append_singleton _ _
          rw [h1.nodup_iff, List.nodup_cons]
          exact ⟨fun hmem => hknotin (List.mem_of_mem_erase hmem), hnodup.erase lru⟩
        · have hmemlen : (assocErase c.cache lru).length = c.cache.length - 1 :=
            length_assocErase_of_mem hlru hnodup
          have hpos : 0 < c.cache.length := by
            cases hcc : c.cache with
            | nil => rw [hcc] at hlru; simp [keysOf] at hlru
            | cons _ _ => simp [hcc]
          rw [length_assocInsert_absent hkerase, hmemlen]
          have : c.cache.length - 1 + 1 = c.cache.length := Nat.succ_pred_eq_of_pos hpos
          rw [this]
          exact hlen
    · rw [if_neg hcap] at h
      obtain rfl := (Except.ok.injEq _ _).mp h
      refine ⟨?_, ?_, ?_⟩
      · rw [keysOf_assocInsert_absent hnone]
        exact hperm.append_right [k]
      · rw [keysOf_assocInsert_absent hnone]
        have h1 : ((keysOf c.cache) ++ [k]).Perm (k :: keysOf c.cache) :=
          List.perm_append_singleton _ _
        rw [h1.nodup_iff, List.nodup_cons]
        exact ⟨hknotin, hnodup⟩
      · rw [length_assocInsert_absent hnone]
        push_cast
        push_neg at hcap
        omega

theorem cacheInv_delete {V : Type} {c : Cache V} (hInv : CacheInv c) (k : String) :
    CacheInv (c.delete k) := by
  obtain ⟨hperm, hnodup, hlen⟩ := hInv
  rw [Cache.delete]
  split
  · refine ⟨?_, ?_, ?_⟩
    · rw [keysOf_assocErase_of_nodup k hnodup]
      exact hperm.erase k
    · rw [keysOf_assocErase_of_nodup k hnodup]
      exact hnodup.erase k
    · calc ((assocErase c.cache k).length : ℤ) ≤ (c.cache.length : ℤ) := by
            exact_mod_cast List.length_filter_le _ _
        _ ≤ c.max_size := hlen
  · exact ⟨hperm, hnodup, hlen⟩

theorem cacheInv_clear {V : Type} {c : Cache V} (hInv : CacheInv c) :
    CacheInv c.clear := by
  refine ⟨List.Perm.refl _, List.nodup_nil, ?_⟩
  simp only [Cache.clear, List.length_nil, Nat.cast_zero]
  calc (0 : ℤ) ≤ (c.cache.length : ℤ) := by positivity
    _ ≤ c.max_size := hInv.2.2

theorem cacheInv_applyOp {V : Type} {c : Cache V} (hInv : CacheInv c)
    (op : CacheOp V) : CacheInv (applyOp c op) := by
  cases op with
  | get k now => exact cacheInv_get hInv k now
  | set k v ttl now =>
    rw [applyOp]
    cases hs : c.set k v ttl now with
    | error e => exact hInv
    | ok c' => exact cacheInv_set hInv hs
  | delete k => exact cacheInv_delete hInv k
  | clear => exact cacheInv_clear hInv

theorem cacheInv_runOps {V : Type} {c : Cache V} (hInv : CacheInv c)
    (ops : List (CacheOp V)) : CacheInv (runOps c ops) := by
  induction ops generalizing c with
  | nil => exact hInv
  | cons op rest ih => exact ih (cacheInv_applyOp hInv op)

theorem getLast_append_singleton {α : Type} (l : List α) (a : α) :
    (l ++ [a]).getLast? = some a :=
  List.getLast?_concat l

theorem get_max_size {V : Type} (c : Cache V) (k : String) (now : ℚ) :
    ((c.get k now).2).max_size = c.max_size := by
  rw [Cache.get]
  cases List.lookup k c.cache with
  | none => rfl
  | some entry =>
    by_cases h : entry.is_expired now
    · simp [h]
    · simp [h]

theorem set_max_size {V : Type} {c c' : Cache V} {k : String} {v : V}
    {ttl : Option ℚ} {now : ℚ} (h : c.set k v ttl now = .ok c') :
    c'.max_size = c.max_size := by
  rw [Cache.set] at h
  split at h
  · obtain rfl := (Except.ok.injEq _ _).mp h
    rfl
  · split at h
    · split at h
      · exact absurd h (by simp)
      · obtain rfl := (Except.ok.injEq _ _).mp h
        rfl
    · obtain rfl := (Except.ok.injEq _ _).mp h
      rfl

theorem applyOp_max_size {V : Type} (c : Cache V) (op : CacheOp V) :
    (applyOp c op).max_size = c.max_size := by
  cases op with
  | get k now => exact get_max_size c k now
  | set k v ttl now =>
    rw [applyOp]
    cases hs : c.set k v ttl now with
    | error e => rfl
    | ok c' => exact set_max_size hs
  | delete k =>
    rw [applyOp, Cache.delete]
    split <;> rfl
  | clear => rfl

theorem runOps_max_size {V : Type} (c : Cache V) (ops : List (CacheOp V)) :
    (runOps c ops).max_size = c.max_size := by
  induction ops generalizing c with
  | nil => rfl
  | cons op rest ih => rw [runOps, ih, applyOp_max_size]

/-! ### Claim C2 -/

/-- C2 (counterexample): `Cache.set` is not total.  On a cache constructed
with `max_size = 0`, the very first `set` finds `len(cache) >= max_size`
with `key not in cache`, and `self._access_order.pop(0)` on the empty
recency list raises `IndexError`. -/
theorem C2_set_counterexample :
    Cache.set (Cache.init ℕ 0 300) "k" 7 none 0 = .error "IndexError" := by
  norm_num [Cache.init, Cache.set, List.lookup]

/-- C2 (amended): on every cache state satisfying the structural invariant
and with `max_size ≥ 1`, `set` returns normally and afterwards the key is
present, mapped to the given value, at the most-recently-used (last)
position of the recency list. -/
theorem C2_set_amended {V : Type} (c : Cache V) (hInv : CacheInv c)
    (hmax : 1 ≤ c.max_size) (k : String) (v : V) (ttl : Option ℚ) (now : ℚ) :
    ∃ c', c.set k v ttl now = .ok c' ∧
      List.lookup k c'.cache =
        some (CacheEntry.init v (ttl.getD c.default_ttl) now) ∧
      c'.access_order.getLast? = some k := by
  obtain ⟨hperm, hnodup, hlen⟩ := hInv
  by_cases hl : (List.lookup k c.cache).isSome
  · rw [Cache.set, if_pos hl]
    exact ⟨_, rfl, lookup_assocInsert_self _ _ _, getLast_append_singleton _ _⟩
  · rw [Cache.set, if_neg hl]
    by_cases hcap : c.max_size ≤ (c.cache.length : ℤ)
    · rw [if_pos hcap]
      have hone : 1 ≤ (c.cache.length : ℤ) := le_trans hmax hcap
      have haolen : c.access_order.length = c.cache.length := by
        rw [hperm.length_eq, keysOf, List.length_map]
      cases hao : c.access_order with
      | nil =>
        exfalso
        rw [hao] at haolen
        simp at haolen
        omega
      | cons lru restOrder =>
        exact ⟨_, rfl, lookup_assocInsert_self _ _ _, getLast_append_singleton _ _⟩
    · rw [if_neg hcap]
      exact ⟨_, rfl, lookup_assocInsert_self _ _ _, getLast_append_singleton _ _⟩

/-- C2 (witness): the amended theorem at a concrete input. -/
theorem C2_set_amended_witness :
    ∃ c', Cache.set (Cache.init ℕ 1 300) "k" 7 none 0 = .ok c' ∧
      List.lookup "k" c'.cache =
        some (CacheEntry.init 7 ((none : Option ℚ).getD
          (Cache.init ℕ 1 300).default_ttl) 0) ∧
      c'.access_order.getLast? = some "k" :=
  C2_set_amended (Cache.init ℕ 1 300)
    ⟨List.Perm.refl _, List.nodup_nil, by norm_num [Cache.init]⟩
    (by norm_num [Cache.init]) "k" 7 none 0

/-! ### Claim C9 -/

/-- C9: `clear()` removes all entries and all recency records (its stats
size becomes 0) while the hit and miss counters are exactly unchanged. -/
theorem C9_clear_frame (V : Type) (c : Cache V) :
    c.clear.cache = [] ∧ c.clear.access_order = [] ∧
    (c.clear.get_stats).size = 0 ∧
    (c.clear.get_stats).hits = (c.get_stats).hits ∧
    (c.clear.get_stats).misses = (c.get_stats).misses :=
  ⟨rfl, rfl, rfl, rfl, rfl⟩

/-! ### Claim C4 -/

/-- C4: starting from an empty cache with `max_size ≥ 1`, after any sequence
of public operations the recency list is a permutation of the stored keys
and the number of stored entries never exceeds `max_size`; moreover, when a
`set` of a fresh key finds the cache at capacity, it succeeds and evicts
exactly the least-recently-used key (the head of the recency list), leaving
the other keys plus the new one. -/
theorem C4_lru_capacity_invariant :
    (∀ (V : Type) (m : ℤ) (ttl0 : ℚ) (ops : List (CacheOp V)), 1 ≤ m →
      CacheInv (runOps (Cache.init V m ttl0) ops) ∧
      (((runOps (Cache.init V m ttl0) ops).get_stats).size : ℤ) ≤ m) ∧
    (∀ (V : Type) (c : Cache V) (k : String) (v : V) (ttl : Option ℚ) (now : ℚ),
      CacheInv c → List.lookup k c.cache = none →
      c.max_size ≤ (c.cache.length : ℤ) →
      ∀ lru restOrder, c.access_order = lru :: restOrder →
        ∃ c', c.set k v ttl now = .ok c' ∧
          keysOf c'.cache = ((keysOf c.cache).erase lru) ++ [k] ∧
          c'.access_order = restOrder ++ [k]) := by
  constructor
  · intro V m ttl0 ops hm
    have hInv := cacheInv_runOps (cacheInv_init V (show (0:ℤ) ≤ m by omega) ttl0) ops
    refine ⟨hInv, ?_⟩
    have h1 := hInv.2.2
    have h2 : (runOps (Cache.init V m ttl0) ops).max_size = m := by
      rw [runOps_max_size]
      rfl
    rw [h2] at h1
    exact h1
  · intro V c k v ttl now hInv hnone hcap lru restOrder hao
    rw [Cache.set, if_neg (by simp [hnone]), if_pos hcap, hao]
    refine ⟨_, rfl, ?_, rfl⟩
    have hlru : lru ∈ keysOf c.cache :=
      hInv.1.mem_iff.mp (hao ▸ List.mem_cons_self lru restOrder)
    have hklru : ¬ k = lru :=
      fun he => ((lookup_eq_none_iff _ _).mp hnone) (he ▸ hlru)
    have hkerase : List.lookup k (assocErase c.cache lru) = none := by
      rw [lookup_assocErase_other _ hklru]
      exact hnone
    rw [keysOf_assocInsert_absent hkerase, keysOf_assocErase_of_nodup lru hInv.2.1]

/-- C4 (witness): the invariant conjunct at a concrete operation sequence. -/
theorem C4_lru_capacity_invariant_witness :
    CacheInv (runOps (Cache.init ℕ 2 300) [CacheOp.set "a" 0 none 0]) ∧
    (((runOps (Cache.init ℕ 2 300) [CacheOp.set "a" 0 none 0]).get_stats).size : ℤ) ≤ 2 :=
  C4_lru_capacity_invariant.1 ℕ 2 300 [CacheOp.set "a" 0 none 0] (by norm_num)

/-! ### Claim C7 -/

/-- C7: for a key stored with ttl `t > 0`, `get` returns the value while
less than `t` seconds have elapsed since the `set`; once more than `t`
seconds have elapsed it returns the not-found sentinel and removes the
entry, so the stats size drops by one; a key stored with ttl `0` is
returned regardless of elapsed time (entries never expire). -/
theorem C7_ttl_expiry :
    (∀ (V : Type) (c : Cache V) (k : String) (v : V) (t0 tt now : ℚ),
      List.lookup k c.cache = some (CacheEntry.init v tt t0) → 0 < tt →
      now - t0 < tt → (c.get k now).1 = some v) ∧
    (∀ (V : Type) (c : Cache V) (k : String) (v : V) (t0 tt now : ℚ),
      List.lookup k c.cache = some (CacheEntry.init v tt t0) → 0 < tt →
      tt < now - t0 → (keysOf c.cache).Nodup →
      (c.get k now).1 = none ∧
      List.lookup k ((c.get k now).2).cache = none ∧
      (((c.get k now).2).get_stats).size = (c.get_stats).size - 1) ∧
    (∀ (V : Type) (c : Cache V) (k : String) (v : V) (t0 now : ℚ),
      List.lookup k c.cache = some (CacheEntry.init v 0 t0) →
      (c.get k now).1 = some v) := by
  refine ⟨?_, ?_, ?_⟩
  · intro V c k v t0 tt now hl htt hnow
    have hexp : (CacheEntry.init v tt t0).is_expired now = false := by
      rw [CacheEntry.init, if_pos htt]
      simp [CacheEntry.is_expired]
      linarith
    simp only [Cache.get, hl, hexp, Bool.false_eq_true, if_false]
    simp [CacheEntry.init]
  · intro V c k v t0 tt now hl htt hnow hnodup
    have hexp : (CacheEntry.init v tt t0).is_expired now = true := by
      rw [CacheEntry.init, if_pos htt]
      simp [CacheEntry.is_expired]
      linarith
    have hk : k ∈ keysOf c.cache := (lookup_isSome_iff _ _).mp (by simp [hl])
    refine ⟨?_, ?_, ?_⟩
    · simp [Cache.get, hl, hexp]
    · simp only [Cache.get, hl, if_pos hexp]
      exact lookup_assocErase_self _ _
    · simp only [Cache.get, hl, if_pos hexp, Cache.get_stats]
      exact length_assocErase_of_mem hk hnodup
  · intro V c k v t0 now hl
    have hexp : (CacheEntry.init v 0 t0).is_expired now = false := by
      rw [CacheEntry.init, if_neg (by norm_num)]
      simp [CacheEntry.is_expired]
    simp only [Cache.get, hl, hexp, Bool.false_eq_true, if_false]
    simp [CacheEntry.init]

/-- C7 (witness): the three conjuncts at concrete inputs. -/
theorem C7_ttl_expiry_witness :
    ((Cache.mk 5 300 [("k", CacheEntry.init 7 10 0)] ["k"] 0 0).get "k" 5).1 =
      some 7 ∧
    (((Cache.mk 5 300 [("k", CacheEntry.init 7 10 0)] ["k"] 0 0).get "k" 11).1 =
      none ∧
     List.lookup "k"
       (((Cache.mk 5 300 [("k", CacheEntry.init (7:ℕ) 10 0)] ["k"] 0 0).get
         "k" 11).2).cache = none ∧
     ((((Cache.mk 5 300 [("k", CacheEntry.init (7:ℕ) 10 0)] ["k"] 0 0).get
         "k" 11).2).get_stats).size =
       ((Cache.mk 5 300 [("k", CacheEntry.init (7:ℕ) 10 0)] ["k"] 0 0).get_stats).size - 1) ∧
    ((Cache.mk 5 300 [("z", CacheEntry.init (9:ℕ) 0 0)] ["z"] 0 0).get "z" 4000).1 =
      some 9 := by
  refine ⟨?_, ?_, ?_⟩
  · exact C7_ttl_expiry.1 ℕ _ "k" 7 0 10 5 (by simp [List.lookup_cons])
      (by norm_num) (by norm_num)
  · exact C7_ttl_expiry.2.1 ℕ _ "k" 7 0 10 11 (by simp [List.lookup_cons])
      (by norm_num) (by norm_num) (by simp [keysOf])
  · exact C7_ttl_expiry.2.2 ℕ _ "z" 9 0 4000 (by simp [List.lookup_cons])

/-! ### Claim C10 -/

/-- C10: an expired entry is not removed by `get` on another key, nor by a
`set` that overwrites another key or inserts under capacity; it is counted
by the stats size; it can be the LRU eviction victim of a `set` at
capacity; and it is removed by a `get` on its own key or by `delete`. -/
theorem C10_lazy_expiry :
    (∀ (V : Type) (c : Cache V) (e k : String) (ent : CacheEntry V) (now now2 : ℚ),
      ent.is_expired now = true →
      List.lookup e c.cache = some ent → ¬ k = e →
      List.lookup e ((c.get k now2).2).cache = some ent) ∧
    (∀ (V : Type) (c : Cache V) (e k : String) (ent : CacheEntry V)
        (v : V) (ttl : Option ℚ) (now now2 : ℚ) (c' : Cache V),
      ent.is_expired now = true →
      List.lookup e c.cache = some ent → ¬ k = e →
      ((List.lookup k c.cache).isSome ∨ (c.cache.length : ℤ) < c.max_size) →
      c.set k v ttl now2 = .ok c' →
      List.lookup e c'.cache = some ent) ∧
    (∀ (V : Type) (c : Cache V) (e : String) (ent : CacheEntry V) (now : ℚ),
      ent.is_expired now = true → List.lookup e c.cache = some ent →
      e ∈ keysOf c.cache ∧ 1 ≤ (c.get_stats).size) ∧
    (∀ (V : Type) (c : Cache V) (e k : String) (v : V) (ttl : Option ℚ) (now2 : ℚ),
      CacheInv c →
      List.lookup k c.cache = none → c.max_size ≤ (c.cache.length : ℤ) →
      ∀ restOrder, c.access_order = e :: restOrder →
        ∃ c', c.set k v ttl now2 = .ok c' ∧ List.lookup e c'.cache = none) ∧
    (∀ (V : Type) (c : Cache V) (e : String) (ent : CacheEntry V) (now : ℚ),
      ent.is_expired now = true → List.lookup e c.cache = some ent →
      (c.get e now).1 = none ∧ List.lookup e ((c.get e now).2).cache = none) ∧
    (∀ (V : Type) (c : Cache V) (e : String),
      List.lookup e ((c.delete e).cache) = none) := by
  refine ⟨?_, ?_, ?_, ?_, ?_, ?_⟩
  · intro V c e k ent now now2 hexp hle hne
    cases hlk : List.lookup k c.cache with
    | none =>
      simp only [Cache.get, hlk]
      exact hle
    | some entk =>
      by_cases hek : entk.is_expired now2
      · simp only [Cache.get, hlk, if_pos hek]
        rw [lookup_assocErase_other _ (fun he => hne he.symm)]
        exact hle
      · simp only [Cache.get, hlk, if_neg hek]
        exact hle
  · intro V c e k ent v ttl now now2 c' hexp hle hne hside h
    have hne' : ¬ e = k := fun he => hne he.symm
    rcases hside with hk | hcap
    · rw [Cache.set, if_pos hk] at h
      obtain rfl := (Except.ok.injEq _ _).mp h
      rw [lookup_assocInsert_other _ hne']
      exact hle
    · by_cases hk : (List.lookup k c.cache).isSome
      · rw [Cache.set, if_pos hk] at h
        obtain rfl := (Except.ok.injEq _ _).mp h
        rw [lookup_assocInsert_other _ hne']
        exact hle
      · rw [Cache.set, if_neg hk, if_neg (by push_neg; omega)] at h
        obtain rfl := (Except.ok.injEq _ _).mp h
        rw [lookup_assocInsert_other _ hne']
        exact hle
  · intro V c e ent now hexp hle
    have hk : e ∈ keysOf c.cache := (lookup_isSome_iff _ _).mp (by simp [hle])
    refine ⟨hk, ?_⟩
    have : 0 < c.cache.length := by
      cases hcc : c.cache with
      | nil => rw [hcc] at hle; simp [List.lookup] at hle
      | cons _ _ => simp [hcc]
    exact this
  · intro V c e k v ttl now2 hInv hnone hcap restOrder hao
    have hlru : e ∈ keysOf c.cache :=
      hInv.1.mem_iff.mp (hao ▸ List.mem_cons_self e restOrder)
    have hke : ¬ k = e :=
      fun he => ((lookup_eq_none_iff _ _).mp hnone) (he ▸ hlru)
    rw [Cache.set, if_neg (by simp [hnone]), if_pos hcap, hao]
    refine ⟨_, rfl, ?_⟩
    rw [lookup_assocInsert_other _ (fun he => hke he.symm)]
    exact lookup_assocErase_self _ _
  · intro V c e ent now hexp hle
    constructor
    · simp [Cache.get, hle, hexp]
    · simp only [Cache.get, hle, if_pos hexp]
      exact lookup_assocErase_self _ _
  · intro V c e
    rw [Cache.delete]
    split
    · exact lookup_assocErase_self _ _
    · rename_i h
      exact Option.not_isSome_iff_eq_none.mp h

/-- C10 (witness): the frame conjuncts at a concrete expired entry. -/
theorem C10_lazy_expiry_witness :
    List.lookup "e"
      (((Cache.mk 2 300 [("e", CacheEntry.mk (7:ℕ) (some 1))] ["e"] 0 0).get
        "x" 5).2).cache = some (CacheEntry.mk (7:ℕ) (some 1)) ∧
    (("e" : String) ∈ keysOf [("e", CacheEntry.mk (7:ℕ) (some 1))] ∧
      1 ≤ ((Cache.mk 2 300 [("e", CacheEntry.mk (7:ℕ) (some 1))] ["e"] 0 0).get_stats).size) ∧
    (((Cache.mk 2 300 [("e", CacheEntry.mk (7:ℕ) (some 1))] ["e"] 0 0).get "e" 5).1 =
      none ∧
     List.lookup "e"
       (((Cache.mk 2 300 [("e", CacheEntry.mk (7:ℕ) (some 1))] ["e"] 0 0).get
         "e" 5).2).cache = none) ∧
    List.lookup "e" (((Cache.mk 2 300 [("e", CacheEntry.mk (7:ℕ) (some 1))]
      ["e"] 0 0).delete "e").cache) = none := by
  refine ⟨?_, ?_, ?_, ?_⟩
  · exact C10_lazy_expiry.1 ℕ _ "e" "x" (CacheEntry.mk 7 (some 1)) 5 5
      (by norm_num [CacheEntry.is_expired]) (by simp [List.lookup_cons])
      (by decide)
  · exact C10_lazy_expiry.2.2.1 ℕ
      (Cache.mk 2 300 [("e", CacheEntry.mk (7:ℕ) (some 1))] ["e"] 0 0) "e"
      (CacheEntry.mk 7 (some 1)) 5
      (by norm_num [CacheEntry.is_expired]) (by simp [List.lookup_cons])
  · exact C10_lazy_expiry.2.2.2.2.1 ℕ
      (Cache.mk 2 300 [("e", CacheEntry.mk (7:ℕ) (some 1))] ["e"] 0 0) "e"
      (CacheEntry.mk 7 (some 1)) 5
      (by norm_num [CacheEntry.is_expired]) (by simp [List.lookup_cons])
  · exact C10_lazy_expiry.2.2.2.2.2 ℕ
      (Cache.mk 2 300 [("e", CacheEntry.mk (7:ℕ) (some 1))] ["e"] 0 0) "e"

/-! ### The cached decorator (src/ynab_py/cache.py, `cached`) -/

/-- On an invariant-satisfying state with `max_size ≥ 1`, `set` succeeds,
stores the entry under the key, and creates no other key. -/
theorem set_ok_lookup {V : Type} (c : Cache V) (hInv : CacheInv c)
    (hmax : 1 ≤ c.max_size) (k : String) (v : V) (ttl : Option ℚ) (now : ℚ) :
    ∃ c', c.set k v ttl now = .ok c' ∧
      List.lookup k c'.cache =
        some (CacheEntry.init v (ttl.getD c.default_ttl) now) ∧
      ∀ k', ¬ k' = k → List.lookup k' c.cache = none →
        List.lookup k' c'.cache = none := by
  obtain ⟨hperm, hnodup, hlen⟩ := hInv
  by_cases hl : (List.lookup k c.cache).isSome
  · rw [Cache.set, if_pos hl]
    refine ⟨_, rfl, lookup_assocInsert_self _ _ _, ?_⟩
    intro k' hne hk'
    rw [lookup_assocInsert_other _ hne]
    exact hk'
  · rw [Cache.set, if_neg hl]
    by_cases hcap : c.max_size ≤ (c.cache.length : ℤ)
    · rw [if_pos hcap]
      have hone : 1 ≤ (c.cache.length : ℤ) := le_trans hmax hcap
      have haolen : c.access_order.length = c.cache.length := by
        rw [hperm.length_eq, keysOf, List.length_map]
      cases hao : c.access_order with
      | nil =>
        exfalso
        rw [hao] at haolen
        simp at haolen
        omega
      | cons lru restOrder =>
        refine ⟨_, rfl, lookup_assocInsert_self _ _ _, ?_⟩
        intro k' hne hk'
        rw [lookup_assocInsert_other _ hne]
        by_cases hkl : k' = lru
        · subst hkl
          exact lookup_assocErase_self _ _
        · rw [lookup_assocErase_other _ hkl]
          exact hk'
    · rw [if_neg hcap]
      refine ⟨_, rfl, lookup_assocInsert_self _ _ _, ?_⟩
      intro k' hne hk'
      rw [lookup_assocInsert_other _ hne]
      exact hk'

/-- One invocation of the wrapper produced by the `cached` decorator.
Python values that may be `None` are modelled as `Option U` with `none`
for `None`; the wrapper checks `cached_value is not None`, which conflates
a cache miss with a stored `None` result.  Returns the wrapper's return
value, the new cache state, and how many times the wrapped computation `f`
was invoked during the call. -/
def cached_call {A U : Type} (c : Cache (Option U)) (f : A → Option U)
    (key_of : A → String) (ttl : Option ℚ) (a : A) (now : ℚ) :
    Except String (Option U × Cache (Option U) × ℕ) :=
  match (c.get (key_of a) now).1 with
  | some (some u) => .ok (some u, (c.get (key_of a) now).2, 0)
  | _ =>
    match ((c.get (key_of a) now).2).set (key_of a) (f a) ttl now with
    | .error e => .error e
    | .ok c2 => .ok (f a, c2, 1)

/-- Two consecutive wrapper invocations (arguments `a` then `b`); returns
the second call's return value and the total number of invocations of the
wrapped computation. -/
def two_cached_calls {A U : Type} (c : Cache (Option U)) (f : A → Option U)
    (key_of : A → String) (ttl : Option ℚ) (a b : A) (t1 t2 : ℚ) :
    Except String (Option U × ℕ) :=
  match cached_call c f key_of ttl a t1 with
  | .error e => .error e
  | .ok (_, c1, n1) =>
    match cached_call c1 f key_of ttl b t2 with
    | .error e => .error e
    | .ok (r2, _, n2) => .ok (r2, n1 + n2)

/-! ### Claim C5 -/

/-- C5 (counterexample): a wrapped computation that returns `None` is
invoked again on the second call with identical arguments (the wrapper's
`is not None` check treats the cached `None` as a miss), so the computation
runs twice, not exactly once. -/
theorem C5_cached_counterexample :
    two_cached_calls (Cache.init (Option ℕ) 10 300) (fun _ : ℕ => none)
      (fun _ => String.append "p:f:" "x") none 1 1 0 0 = .ok (none, 2) ∧
    ¬ (2 = 1) := by
  constructor
  · norm_num [two_cached_calls, cached_call, Cache.get, Cache.set, Cache.init,
      CacheEntry.init, CacheEntry.is_expired, List.lookup, assocInsert,
      assocErase, window_seconds]
  · norm_num

/-- C5 (amended): provided the wrapped computation never returns `None` for
the arguments involved and the derived keys of distinct arguments differ,
two wrapper calls with identical arguments (second within ttl, key
initially absent) invoke the computation exactly once and the second call
returns the cached value; two calls with distinct arguments (both keys
initially absent) invoke it once per argument. -/
theorem C5_cached_single_invocation_amended :
    (∀ (A U : Type) (c : Cache (Option U)) (f : A → Option U)
        (key_of : A → String) (ttl : Option ℚ) (a : A) (t1 t2 : ℚ) (u : U),
      CacheInv c → 1 ≤ c.max_size →
      f a = some u → List.lookup (key_of a) c.cache = none →
      (CacheEntry.init (f a) (ttl.getD c.default_ttl) t1).is_expired t2 = false →
      two_cached_calls c f key_of ttl a a t1 t2 = .ok (some u, 1)) ∧
    (∀ (A U : Type) (c : Cache (Option U)) (f : A → Option U)
        (key_of : A → String) (ttl : Option ℚ) (a b : A) (t1 t2 : ℚ) (u w : U),
      CacheInv c → 1 ≤ c.max_size →
      f a = some u → f b = some w →
      List.lookup (key_of a) c.cache = none →
      List.lookup (key_of b) c.cache = none →
      ¬ key_of b = key_of a →
      two_cached_calls c f key_of ttl a b t1 t2 = .ok (some w, 2)) := by
  constructor
  · intro A U c f key_of ttl a t1 t2 u hInv hmax hfa hla hfresh
    have hmiss : (c.get (key_of a) t1).1 = none ∧
        (c.get (key_of a) t1).2 = { c with misses := c.misses + 1 } := by
      rw [Cache.get, hla]
      exact ⟨rfl, rfl⟩
    have hInvm : CacheInv { c with misses := c.misses + 1 } :=
      ⟨hInv.1, hInv.2.1, hInv.2.2⟩
    obtain ⟨c1, hset, hlook, -⟩ :=
      set_ok_lookup { c with misses := c.misses + 1 } hInvm hmax
        (key_of a) (f a) ttl t1
    have hcall1 : cached_call c f key_of ttl a t1 = .ok (f a, c1, 1) := by
      rw [cached_call, hmiss.1, hmiss.2, hset]
    have hlook' : List.lookup (key_of a) c1.cache =
        some (CacheEntry.init (f a) (ttl.getD c.default_ttl) t1) := hlook
    have hhit : (c1.get (key_of a) t2).1 = some (f a) := by
      simp only [Cache.get, hlook']
      rw [if_neg (by rw [hfresh]; exact Bool.false_ne_true)]
      rfl
    have hcall2 : ∃ cx, cached_call c1 f key_of ttl a t2 = .ok (some u, cx, 0) := by
      rw [cached_call]
      rw [hhit, hfa]
      exact ⟨_, rfl⟩
    obtain ⟨cx, hcall2⟩ := hcall2
    simp only [two_cached_calls, hcall1, hcall2]
  · intro A U c f key_of ttl a b t1 t2 u w hInv hmax hfa hfb hla hlb hne
    have hmiss : (c.get (key_of a) t1).1 = none ∧
        (c.get (key_of a) t1).2 = { c with misses := c.misses + 1 } := by
      rw [Cache.get, hla]
      exact ⟨rfl, rfl⟩
    have hInvm : CacheInv { c with misses := c.misses + 1 } :=
      ⟨hInv.1, hInv.2.1, hInv.2.2⟩
    obtain ⟨c1, hset, -, hother⟩ :=
      set_ok_lookup { c with misses := c.misses + 1 } hInvm hmax
        (key_of a) (f a) ttl t1
    have hcall1 : cached_call c f key_of ttl a t1 = .ok (f a, c1, 1) := by
      rw [cached_call, hmiss.1, hmiss.2, hset]
    have hlb1 : List.lookup (key_of b) c1.cache = none :=
      hother (key_of b) hne hlb
    have hmiss2 : (c1.get (key_of b) t2).1 = none ∧
        (c1.get (key_of b) t2).2 = { c1 with misses := c1.misses + 1 } := by
      rw [Cache.get, hlb1]
      exact ⟨rfl, rfl⟩
    have hInv1 : CacheInv c1 := cacheInv_set hInvm hset
    have hInv1m : CacheInv { c1 with misses := c1.misses + 1 } :=
      ⟨hInv1.1, hInv1.2.1, hInv1.2.2⟩
    have hmax1 : 1 ≤ ({ c1 with misses := c1.misses + 1 } : Cache (Option U)).max_size := by
      have := set_max_size hset
      simpa [this] using hmax
    obtain ⟨c2, hset2, -, -⟩ :=
      set_ok_lookup { c1 with misses := c1.misses + 1 } hInv1m hmax1
        (key_of b) (f b) ttl t2
    have hcall2 : cached_call c1 f key_of ttl b t2 = .ok (f b, c2, 1) := by
      rw [cached_call, hmiss2.1, hmiss2.2, hset2]
    simp only [two_cached_calls, hcall1, hcall2, hfb]

/-- C5 (witness): the two amended conjuncts at concrete inputs. -/
theorem C5_cached_single_invocation_witness :
    two_cached_calls (Cache.init (Option ℕ) 10 300) (fun n : ℕ => some n)
      (fun n => if n = 1 then "k1" else "k2") none 1 1 0 0 = .ok (some 1, 1) ∧
    two_cached_calls (Cache.init (Option ℕ) 10 300) (fun n : ℕ => some n)
      (fun n => if n = 1 then "k1" else "k2") none 1 2 0 0 = .ok (some 2, 2) := by
  constructor
  · exact C5_cached_single_invocation_amended.1 ℕ ℕ (Cache.init (Option ℕ) 10 300)
      (fun n => some n) (fun n => if n = 1 then "k1" else "k2") none 1 0 0 1
      ⟨List.Perm.refl _, List.nodup_nil, by norm_num [Cache.init]⟩
      (by norm_num [Cache.init]) rfl rfl
      (by norm_num [CacheEntry.init, CacheEntry.is_expired, Cache.init])
  · exact C5_cached_single_invocation_amended.2 ℕ ℕ (Cache.init (Option ℕ) 10 300)
      (fun n => some n) (fun n => if n = 1 then "k1" else "k2") none 1 2 0 0 1 2
      ⟨List.Perm.refl _, List.nodup_nil, by norm_num [Cache.init]⟩
      (by norm_num [Cache.init]) rfl rfl rfl rfl (by decide)

/-! ### cache_key (src/ynab_py/cache.py, `cache_key`) -/

/-- Lexicographic comparison of code-point lists (the order Python's
`sorted` uses on strings). -/
def pyStrLeChars : List Char → List Char → Bool
  | [], _ => true
  | _ :: _, [] => false
  | a :: as, b :: bs =>
    if a.toNat < b.toNat then true
    else if b.toNat < a.toNat then false
    else pyStrLeChars as bs

/-- String comparison used by `sorted(kwargs.keys())`. -/
def pyStrLe (a b : String) : Bool := pyStrLeChars a.data b.data

/-- Insertion into a sorted list of strings. -/
def orderedInsertStr (a : String) : List String → List String
  | [] => [a]
  | b :: l => if pyStrLe a b then a :: b :: l else b :: orderedInsertStr a l

/-- Python `sorted` on a list of strings (insertion sort; the algorithm is
irrelevant, only sortedness and permutation matter). -/
def sortStrings : List String → List String
  | [] => []
  | a :: l => orderedInsertStr a (sortStrings l)

/-- Function `cache_key(*args, **kwargs)`: positional arguments are their `str(...)`
renderings in order (`none` for Python `None`, which is skipped), then the
keyword arguments sorted by key with `None`-valued ones skipped, each as
`"k=v"`, all joined with `":"`. -/
def cache_key (args : List (Option String))
    (kwargs : List (String × Option String)) : String :=
  String.intercalate ":" (args.filterMap id ++
    (sortStrings (keysOf kwargs)).filterMap (fun k =>
      match List.lookup k kwargs with
      | some (some v) => some (k ++ "=" ++ v)
      | _ => none))

/-- The full key used by the `cached` wrapper:
`f"{key_prefix}:{func.__name__}:{cache_key(*args, **kwargs)}"`. -/
def wrapper_key (key_pre func_name : String) (args : List (Option String))
    (kwargs : List (String × Option String)) : String :=
  key_pre ++ ":" ++ func_name ++ ":" ++ cache_key args kwargs

theorem pyStrLeChars_total : ∀ as bs,
    pyStrLeChars as bs = true ∨ pyStrLeChars bs as = true
  | [], _ => Or.inl rfl
  | _ :: _, [] => Or.inr rfl
  | a :: as, b :: bs => by
    by_cases h1 : a.toNat < b.toNat
    · left
      simp [pyStrLeChars, h1]
    · by_cases h2 : b.toNat < a.toNat
      · right
        simp [pyStrLeChars, h2]
      · rcases pyStrLeChars_total as bs with h | h
        · left
          simpa [pyStrLeChars, h1, h2] using h
        · right
          simpa [pyStrLeChars, h1, h2] using h

theorem pyStrLeChars_trans : ∀ as bs cs,
    pyStrLeChars as bs = true → pyStrLeChars bs cs = true →
    pyStrLeChars as cs = true
  | [], _, _ => fun _ _ => rfl
  | _ :: _, [], _ => fun h _ => by simp [pyStrLeChars] at h
  | _ :: _, _ :: _, [] => fun _ h => by simp [pyStrLeChars] at h
  | a :: as, b :: bs, c :: cs => fun h1 h2 => by
    rw [pyStrLeChars] at h1 h2 ⊢
    have H1 : a.toNat < b.toNat ∨
        (a.toNat = b.toNat ∧ pyStrLeChars as bs = true) := by
      by_cases hab : a.toNat < b.toNat
      · exact Or.inl hab
      · by_cases hba : b.toNat < a.toNat
        · rw [if_neg hab, if_pos hba] at h1
          exact absurd h1 (by simp)
        · right
          rw [if_neg hab, if_neg hba] at h1
          exact ⟨by omega, h1⟩
    have H2 : b.toNat < c.toNat ∨
        (b.toNat = c.toNat ∧ pyStrLeChars bs cs = true) := by
      by_cases hbc : b.toNat < c.toNat
      · exact Or.inl hbc
      · by_cases hcb : c.toNat < b.toNat
        · rw [if_neg hbc, if_pos hcb] at h2
          exact absurd h2 (by simp)
        · right
          rw [if_neg hbc, if_neg hcb] at h2
          exact ⟨by omega, h2⟩
    rcases H1 with hab | ⟨hab, hrec1⟩
    · rcases H2 with hbc | ⟨hbc, _⟩
      · rw [if_pos (by omega)]
      · rw [if_pos (by omega)]
    · rcases H2 with hbc | ⟨hbc, hrec2⟩
      · rw [if_pos (by omega)]
      · rw [if_neg (by omega), if_neg (by omega)]
        exact pyStrLeChars_trans as bs cs hrec1 hrec2

theorem pyStrLeChars_antisymm : ∀ as bs,
    pyStrLeChars as bs = true → pyStrLeChars bs as = true → as = bs
  | [], [] => fun _ _ => rfl
  | [], _ :: _ => fun _ h => by simp [pyStrLeChars] at h
  | _ :: _, [] => fun h _ => by simp [pyStrLeChars] at h
  | a :: as, b :: bs => fun h1 h2 => by
    rw [pyStrLeChars] at h1 h2
    have H1 : a.toNat < b.toNat ∨
        (a.toNat = b.toNat ∧ pyStrLeChars as bs = true) := by
      by_cases hab : a.toNat < b.toNat
      · exact Or.inl hab
      · by_cases hba : b.toNat < a.toNat
        · rw [if_neg hab, if_pos hba] at h1
          exact absurd h1 (by simp)
        · right
          rw [if_neg hab, if_neg hba] at h1
          exact ⟨by omega, h1⟩
    have H2 : b.toNat < a.toNat ∨
        (b.toNat = a.toNat ∧ pyStrLeChars bs as = true) := by
      by_cases hba : b.toNat < a.toNat
      · exact Or.inl hba
      · by_cases hab : a.toNat < b.toNat
        · rw [if_neg hba, if_pos hab] at h2
          exact absurd h2 (by simp)
        · right
          rw [if_neg hba, if_neg hab] at h2
          exact ⟨by omega, h2⟩
    rcases H1 with hab | ⟨hab, hrec1⟩
    · rcases H2 with hba | ⟨hba, _⟩
      · omega
      · omega
    · rcases H2 with hba | ⟨hba, hrec2⟩
      · omega
      · have hc : a = b := Char.ext (UInt32.toNat.inj hab)
        rw [hc, pyStrLeChars_antisymm as bs hrec1 hrec2]

theorem pyStrLe_total (a b : String) : pyStrLe a b = true ∨ pyStrLe b a = true :=
  pyStrLeChars_total a.data b.data

theorem pyStrLe_trans (a b c : String) (h1 : pyStrLe a b = true)
    (h2 : pyStrLe b c = true) : pyStrLe a c = true :=
  pyStrLeChars_trans a.data b.data c.data h1 h2

theorem pyStrLe_antisymm (a b : String) (h1 : pyStrLe a b = true)
    (h2 : pyStrLe b a = true) : a = b :=
  String.ext (pyStrLeChars_antisymm a.data b.data h1 h2)

theorem perm_orderedInsertStr (a : String) (l : List String) :
    (orderedInsertStr a l).Perm (a :: l) := by
  induction l with
  | nil => exact List.Perm.refl _
  | cons b l ih =>
    rw [orderedInsertStr]
    split
    · exact List.Perm.refl _
    · exact (ih.cons b).trans (List.Perm.swap a b l)

theorem perm_sortStrings (l : List String) : (sortStrings l).Perm l := by
  induction l with
  | nil => exact List.Perm.refl _
  | cons a l ih =>
    rw [sortStrings]
    exact (perm_orderedInsertStr a (sortStrings l)).trans (ih.cons a)

theorem sorted_orderedInsertStr {l : List String} (a : String)
    (h : l.Sorted (fun x y => pyStrLe x y = true)) :
    (orderedInsertStr a l).Sorted (fun x y => pyStrLe x y = true) := by
  induction l with
  | nil => simp [orderedInsertStr]
  | cons b l ih =>
    rw [orderedInsertStr]
    split
    · rename_i hab
      rw [List.sorted_cons]
      refine ⟨?_, h⟩
      intro y hy
      rcases List.mem_cons.mp hy with rfl | hyl
      · exact hab
      · exact pyStrLe_trans a b y hab ((List.sorted_cons.mp h).1 y hyl)
    · rename_i hab
      have hba : pyStrLe b a = true := by
        rcases pyStrLe_total a b with h1 | h1
        · exact absurd h1 hab
        · exact h1
      rw [List.sorted_cons] at h
      rw [List.sorted_cons]
      refine ⟨?_, ih h.2⟩
      intro y hy
      have hmem := (perm_orderedInsertStr a l).mem_iff.mp hy
      rcases List.mem_cons.mp hmem with rfl | hyl
      · exact hba
      · exact h.1 y hyl

theorem sorted_sortStrings (l : List String) :
    (sortStrings l).Sorted (fun x y => pyStrLe x y = true) := by
  induction l with
  | nil => simp [sortStrings]
  | cons a l ih =>
    rw [sortStrings]
    exact sorted_orderedInsertStr a ih

theorem sortStrings_eq_of_perm {l1 l2 : List String} (h : l1.Perm l2) :
    sortStrings l1 = sortStrings l2 := by
  haveI : IsAntisymm String (fun x y => pyStrLe x y = true) :=
    ⟨pyStrLe_antisymm⟩
  exact List.eq_of_perm_of_sorted
    (((perm_sortStrings l1).trans h).trans (perm_sortStrings l2).symm)
    (sorted_sortStrings l1) (sorted_sortStrings l2)

theorem lookup_perm {β : Type} {l1 l2 : List (String × β)} (h : l1.Perm l2)
    (hnd : (keysOf l1).Nodup) (k : String) :
    List.lookup k l1 = List.lookup k l2 := by
  induction h with
  | nil => rfl
  | cons p h ih =>
    obtain ⟨a, b⟩ := p
    have hnd' : (keysOf _).Nodup := (List.nodup_cons.mp hnd).2
    by_cases hk : k = a
    · subst hk
      simp [List.lookup_cons]
    · have hba : (k == a) = false := by simp [hk]
      simp only [List.lookup_cons, hba]
      exact ih hnd'
  | swap p q l =>
    obtain ⟨a, b⟩ := p
    obtain ⟨c, d⟩ := q
    have hac : ¬ c = a := by
      have := List.nodup_cons.mp hnd
      exact fun he => this.1 (by simp [keysOf, he])
    by_cases hk1 : k = c
    · subst hk1
      have hba : (k == a) = false := by simp [hac]
      simp [List.lookup_cons, hba]
    · by_cases hk2 : k = a
      · subst hk2
        have hbc : (k == c) = false := by simp [hk1]
        simp [List.lookup_cons, hbc]
      · have hba : (k == a) = false := by simp [hk2]
        have hbc : (k == c) = false := by simp [hk1]
        simp [List.lookup_cons, hba, hbc]
  | trans h1 h2 ih1 ih2 =>
    have hmid := ((h1.map Prod.fst).nodup_iff).mp hnd
    exact (ih1 hnd).trans (ih2 hmid)

theorem filterMap_orderedInsert_none {β : Type} {f : String → Option β}
    {a : String} (hf : f a = none) (l : List String) :
    (orderedInsertStr a l).filterMap f = l.filterMap f := by
  induction l with
  | nil => simp [orderedInsertStr, List.filterMap_cons, hf]
  | cons b l ih =>
    rw [orderedInsertStr]
    split
    · simp only [List.filterMap_cons, hf]
    · simp only [List.filterMap_cons]
      cases f b <;> simp [ih]

theorem filterMap_id_filter_isSome {β : Type} (l : List (Option β)) :
    (l.filter (fun o => o.isSome)).filterMap id = l.filterMap id := by
  induction l with
  | nil => rfl
  | cons o l ih =>
    cases o with
    | none => simpa [List.filter, List.filterMap_cons] using ih
    | some b => simpa [List.filter, List.filterMap_cons] using ih

/-! ### Claim C6 -/

/-- C6 (counterexample): the key derivation is not injective.  The
positional arguments `("a:b")` and `("a", "b")` are distinct yet derive the
same key `"a:b"` (the separator `":"` can occur inside rendered
arguments), so a namespacing prefix cannot distinguish them either. -/
theorem C6_cache_key_counterexample :
    cache_key [some "a:b"] [] = cache_key [some "a", some "b"] [] ∧
    ¬ ([some "a:b"] = [some "a", some "b"]) := by
  constructor
  · rfl
  · simp

/-- C6 (amended): the key derivation is deterministic — two calls with the
same positional arguments and with keyword arguments that are equal as a
(duplicate-free) set yield the same key, independent of keyword order;
`None`-valued positional and keyword arguments are omitted from the key.
It is not injective: distinct argument lists can collide under the same
prefix. -/
theorem C6_cache_key_amended :
    (∀ (args : List (Option String)) (kw1 kw2 : List (String × Option String)),
      kw1.Perm kw2 → (keysOf kw1).Nodup →
      cache_key args kw1 = cache_key args kw2) ∧
    (∀ (args : List (Option String)) (kw : List (String × Option String)),
      cache_key args kw = cache_key (args.filter (fun o => o.isSome)) kw) ∧
    (∀ (args : List (Option String)) (kw : List (String × Option String))
        (k : String), k ∉ keysOf kw →
      cache_key args ((k, none) :: kw) = cache_key args kw) ∧
    (cache_key [some "a:b"] [] = cache_key [some "a", some "b"] [] ∧
      ¬ ([some "a:b"] = [some "a", some "b"])) := by
  refine ⟨?_, ?_, ?_, rfl, by simp⟩
  · intro args kw1 kw2 hperm hnd
    rw [cache_key, cache_key]
    have hkeys : sortStrings (keysOf kw1) = sortStrings (keysOf kw2) :=
      sortStrings_eq_of_perm (hperm.map Prod.fst)
    rw [hkeys]
    congr 2
    apply List.filterMap_congr
    intro k _
    rw [lookup_perm hperm hnd k]
  · intro args kw
    rw [cache_key, cache_key, filterMap_id_filter_isSome]
  · intro args kw k hk
    rw [cache_key, cache_key]
    have hs : sortStrings (keysOf ((k, none) :: kw)) =
        orderedInsertStr k (sortStrings (keysOf kw)) := rfl
    rw [hs]
    congr 2
    have hfk : (fun k' =>
        match List.lookup k' ((k, none) :: kw) with
        | some (some v) => some (k' ++ "=" ++ v)
        | _ => none) k = (none : Option String) := by
      simp [List.lookup_cons]
    rw [filterMap_orderedInsert_none hfk]
    apply List.filterMap_congr
    intro x hx
    have hxk : ¬ x = k := by
      intro he
      subst he
      exact hk ((perm_sortStrings (keysOf kw)).mem_iff.mp hx)
    have hbx : (x == k) = false := by simp [hxk]
    simp only [List.lookup_cons, hbx]

/-- C6 (witness): the amended conjuncts at concrete inputs. -/
theorem C6_cache_key_amended_witness :
    cache_key [some "a"] [("k", some "v")] = cache_key [some "a"] [("k", some "v")] ∧
    cache_key [some "a", none] [] = cache_key ([some "a", none].filter
      (fun o => o.isSome)) [] ∧
    cache_key [some "a"] [("z", none)] = cache_key [some "a"] [] := by
  refine ⟨?_, ?_, ?_⟩
  · exact C6_cache_key_amended.1 [some "a"] [("k", some "v")] [("k", some "v")]
      (List.Perm.refl _) (by simp [keysOf])
  · exact C6_cache_key_amended.2.1 [some "a", none] []
  · exact C6_cache_key_amended.2.2.1 [some "a"] [] "z" (by simp [keysOf])
